import Mathlib

/-!
# Verification of the AG2 documentation corpus specification

Shallow embedding of the program fragments shipped in this repository
(the prime-counting sieve and the tool functions of the DeepSeek page,
the termination predicate of the swarm-orchestration guide) together
with a model of the swarm hand-off / after-work routing protocol that
the specification describes.  Theorems check the specification's claims
against these definitions.
-/

namespace Ag2Spec

/-!
## The `count_primes` sieve

From the two-agent coding example of the DeepSeek documentation page:

```
prime = [True for _ in range(n+1)]
p = 2
while (p * p <= n):
    if prime[p] == True:
        for i in range(p * p, n+1, p):
            prime[i] = False
    p += 1
prime_count = 0
for p in range(2, n+1):
    if prime[p]:
        prime_count += 1
return prime_count
```

Loops are embedded with an explicit fuel argument bounding the number of
iterations; `count_primes` supplies fuel `n + 1`, which exceeds the
iteration count of both loops, so the fuel never runs out.
-/

/-- The inner loop `for i in range(i₀, n+1, p): prime[i] = False`. -/
def markMultiples (p n : Nat) : Nat → Nat → List Bool → List Bool
  | _, 0, l => l
  | i, fuel+1, l => if i ≤ n then markMultiples p n (i + p) fuel (l.set i false) else l

/-- The outer loop `while p * p <= n: if prime[p]: mark multiples; p += 1`. -/
def sieveLoop (n : Nat) : Nat → Nat → List Bool → List Bool
  | _, 0, l => l
  | p, fuel+1, l =>
    if p * p ≤ n then
      sieveLoop n (p + 1) fuel
        (if l.getD p false then markMultiples p n (p * p) (n + 1) l else l)
    else l

/-- `count_primes` from the source: a Sieve of Eratosthenes over a boolean
array of size `n + 1`, followed by a counting pass over `range(2, n+1)`. -/
def count_primes (n : Nat) : Nat :=
  let prime := List.replicate (n + 1) true
  let prime := sieveLoop n 2 (n + 1) prime
  (List.range' 2 (n - 1)).foldl (fun c p => if prime.getD p false then c + 1 else c) 0

/-!
A computation twin of the sieve that keeps the "marked composite" flags in
the bits of a natural number instead of a boolean list (bit `i` set means
`prime[i] = False`), and performs the inner marking pass and the final
counting pass by divide and conquer so that kernel reduction stays shallow.
The twin is proved to agree with `count_primes` everywhere; its only role
is to let the concrete value `count_primes 10000` be evaluated.
-/

/-- The bitmask whose set bits are exactly the indices `a + i * p` for
`i < k`, computed by divide and conquer on `k`; correct whenever
`k ≤ 2 ^ fuel`. -/
def markTree (p : Nat) : Nat → Nat → Nat → Nat
  | 0, a, k => if k = 1 then 1 <<< a else 0
  | fuel+1, a, k =>
    if k = 0 then 0
    else if k = 1 then 1 <<< a
    else markTree p fuel a (k / 2) ||| markTree p fuel (a + k / 2 * p) (k - k / 2)

/-- Bitmask twin of `sieveLoop`: the same `while p * p ≤ n` loop, marking
the multiples `p * p, p * p + p, …` up to `n` of each surviving `p` at
once. -/
def sieveLoopM (n fuel : Nat) : Nat → Nat → Nat → Nat
  | _, 0, m => m
  | p, ofuel+1, m =>
    if p * p ≤ n then
      sieveLoopM n fuel (p + 1) ofuel
        (if !(m.testBit p) then m ||| markTree p fuel (p * p) ((n - p * p) / p + 1) else m)
    else m

/-- The number of indices `j` in `[lo, lo + len)` with bit `j` of `m`
clear, by divide and conquer on `len`; correct whenever `len ≤ 2 ^ fuel`. -/
def countZeroBits (m : Nat) : Nat → Nat → Nat → Nat
  | 0, lo, len => if len = 1 then (if m.testBit lo then 0 else 1) else 0
  | fuel+1, lo, len =>
    if len = 0 then 0
    else if len = 1 then (if m.testBit lo then 0 else 1)
    else countZeroBits m fuel lo (len / 2) + countZeroBits m fuel (lo + len / 2) (len - len / 2)

/-- Bitmask twin of `count_primes`: run the sieve on a bitmask and count
the unmarked cells among `2, …, n`.  Agrees with `count_primes n` whenever
`n + 1 ≤ 2 ^ fuel`. -/
def count_primesM (fuel n : Nat) : Nat :=
  countZeroBits (sieveLoopM n fuel 2 (n + 1) 0) fuel 2 (n - 1)

/-!  ### Correctness of the sieve  -/

theorem markMultiples_length (p n : Nat) :
    ∀ fuel i l, (markMultiples p n i fuel l).length = l.length := by
  intro fuel
  induction fuel with
  | zero => intro i l; rfl
  | succ fuel ih =>
    intro i l
    rw [markMultiples]
    split
    · rw [ih]; simp
    · rfl

theorem markMultiples_getD (p n : Nat) (hp : 0 < p) :
    ∀ fuel i l j, n + 1 - i ≤ fuel → l.length = n + 1 → j ≤ n →
      (markMultiples p n i fuel l).getD j false
        = if i ≤ j ∧ p ∣ (j - i) then false else l.getD j false := by
  intro fuel
  induction fuel with
  | zero =>
    intro i l j hfuel hlen hj
    have hno : ¬ (i ≤ j ∧ p ∣ (j - i)) := by
      rintro ⟨h1, -⟩; omega
    rw [if_neg hno]; rfl
  | succ fuel ih =>
    intro i l j hfuel hlen hj
    rw [markMultiples]
    by_cases hin : i ≤ n
    · rw [if_pos hin,
        ih (i + p) (l.set i false) j (by omega) (by simpa using hlen) hj]
      by_cases hij : j = i
      · subst hij
        have h1 : ¬ (j + p ≤ j ∧ p ∣ (j - (j + p))) := by
          rintro ⟨h1, -⟩; omega
        have h2 : j ≤ j ∧ p ∣ (j - j) := ⟨le_refl j, by simp⟩
        have hjlen : j < l.length := by omega
        rw [if_neg h1, if_pos h2]
        simp [List.getD_eq_getElem?_getD, List.getElem?_set_self hjlen]
      · have hset : (l.set i false).getD j false = l.getD j false := by
          simp [List.getD_eq_getElem?_getD,
            List.getElem?_set_ne (fun h => hij h.symm)]
        rw [hset]
        have hiff : (i + p ≤ j ∧ p ∣ (j - (i + p))) ↔ (i ≤ j ∧ p ∣ (j - i)) := by
          constructor
          · rintro ⟨h1, hd⟩
            have heq : j - i = (j - (i + p)) + p := by omega
            exact ⟨by omega, heq ▸ Nat.dvd_add hd (dvd_refl p)⟩
          · rintro ⟨h1, hd⟩
            have hpos : 0 < j - i := by omega
            have hple : p ≤ j - i := Nat.le_of_dvd hpos hd
            have heq : j - (i + p) = (j - i) - p := by omega
            exact ⟨by omega, heq ▸ Nat.dvd_sub' hd (dvd_refl p)⟩
        by_cases hc : i ≤ j ∧ p ∣ (j - i)
        · rw [if_pos (hiff.mpr hc), if_pos hc]
        · rw [if_neg (fun h => hc (hiff.mp h)), if_neg hc]
    · rw [if_neg hin]
      have hno : ¬ (i ≤ j ∧ p ∣ (j - i)) := by
        rintro ⟨h1, -⟩; omega
      rw [if_neg hno]

theorem markTree_testBit (p : Nat) :
    ∀ fuel a k j, k ≤ 2 ^ fuel →
      ((markTree p fuel a k).testBit j = true ↔ ∃ i, i < k ∧ j = a + i * p) := by
  intro fuel
  induction fuel with
  | zero =>
    intro a k j hk
    simp only [pow_zero] at hk
    have hk1 : k = 0 ∨ k = 1 := by omega
    rcases hk1 with rfl | rfl
    · simp [markTree]
    · rw [markTree]
      rw [if_pos rfl, Nat.shiftLeft_eq, one_mul, Nat.testBit_two_pow]
      simp only [decide_eq_true_eq]
      constructor
      · rintro rfl; exact ⟨0, Nat.zero_lt_one, by simp⟩
      · rintro ⟨i, hi, rfl⟩
        have hi0 : i = 0 := by omega
        subst hi0; simp
  | succ fuel ih =>
    intro a k j hk
    rw [markTree]
    by_cases hk0 : k = 0
    · subst hk0; simp
    · rw [if_neg hk0]
      by_cases hk1 : k = 1
      · subst hk1
        rw [if_pos rfl, Nat.shiftLeft_eq, one_mul, Nat.testBit_two_pow]
        simp only [decide_eq_true_eq]
        constructor
        · rintro rfl; exact ⟨0, Nat.zero_lt_one, by simp⟩
        · rintro ⟨i, hi, rfl⟩
          have hi0 : i = 0 := by omega
          subst hi0; simp
      · rw [if_neg hk1]
        have hpow : 2 ^ (fuel + 1) = 2 ^ fuel * 2 := pow_succ 2 fuel
        have h1 : k / 2 ≤ 2 ^ fuel := by omega
        have h2 : k - k / 2 ≤ 2 ^ fuel := by omega
        rw [Nat.testBit_or, Bool.or_eq_true, ih a (k / 2) j h1,
          ih (a + k / 2 * p) (k - k / 2) j h2]
        constructor
        · rintro (⟨i, hi, rfl⟩ | ⟨i, hi, rfl⟩)
          · exact ⟨i, by omega, rfl⟩
          · refine ⟨k / 2 + i, by omega, ?_⟩
            rw [Nat.add_mul, ← Nat.add_assoc]
        · rintro ⟨i, hi, rfl⟩
          by_cases hsplit : i < k / 2
          · exact Or.inl ⟨i, hsplit, rfl⟩
          · refine Or.inr ⟨i - k / 2, by omega, ?_⟩
            have heq : i * p = k / 2 * p + (i - k / 2) * p := by
              rw [← Nat.add_mul]; congr 1; omega
            rw [heq, ← Nat.add_assoc]

/-- Pointwise relation between the boolean-list sieve state and the bitmask
sieve state: same size-`n + 1` array, and cell `j` reads `True` exactly when
bit `j` of the mask is clear. -/
def SieveRel (n : Nat) (l : List Bool) (m : Nat) : Prop :=
  l.length = n + 1 ∧ ∀ j, j ≤ n → l.getD j false = !(m.testBit j)

theorem sieveLoop_rel (n fuel : Nat) (hfuel : n + 1 ≤ 2 ^ fuel) :
    ∀ ofuel p l m, 2 ≤ p → SieveRel n l m →
      SieveRel n (sieveLoop n p ofuel l) (sieveLoopM n fuel p ofuel m) := by
  intro ofuel
  induction ofuel with
  | zero => intro p l m hp hrel; exact hrel
  | succ ofuel ih =>
    intro p l m hp hrel
    rw [sieveLoop, sieveLoopM]
    by_cases hcond : p * p ≤ n
    · rw [if_pos hcond, if_pos hcond]
      have hpn : p ≤ n := le_trans (Nat.le_mul_of_pos_left p (by omega)) hcond
      have hbit : l.getD p false = !(m.testBit p) := hrel.2 p hpn
      apply ih (p + 1) _ _ (by omega)
      rw [hbit]
      by_cases hmark : m.testBit p
      · simp only [hmark, Bool.not_true, if_neg Bool.false_ne_true]
        exact hrel
      · simp only [hmark, Bool.not_false, if_true]
        constructor
        · rw [markMultiples_length]; exact hrel.1
        · intro j hj
          have hk : (n - p * p) / p + 1 ≤ 2 ^ fuel := by
            have h1 : (n - p * p) / p ≤ n - p * p := Nat.div_le_self _ _
            omega
          have hchar := markTree_testBit p fuel (p * p) ((n - p * p) / p + 1) j hk
          have hmm := markMultiples_getD p n (by omega) (n + 1) (p * p) l j
            (Nat.sub_le _ _) hrel.1 hj
          rw [hmm, Nat.testBit_or]
          by_cases hc : p * p ≤ j ∧ p ∣ (j - p * p)
          · rw [if_pos hc]
            have hbitj : (markTree p fuel (p * p) ((n - p * p) / p + 1)).testBit j = true := by
              rw [hchar]
              obtain ⟨hle, hdvd⟩ := hc
              refine ⟨(j - p * p) / p, ?_, ?_⟩
              · have := Nat.div_le_div_right (c := p) (Nat.sub_le_sub_right hj (p * p))
                omega
              · have heq : (j - p * p) / p * p = j - p * p := Nat.div_mul_cancel hdvd
                omega
            rw [hbitj]
            simp
          · rw [if_neg hc]
            have hbitj : (markTree p fuel (p * p) ((n - p * p) / p + 1)).testBit j = false := by
              rw [Bool.eq_false_iff]
              intro habs
              apply hc
              obtain ⟨i, hi, rfl⟩ := hchar.mp habs
              refine ⟨Nat.le_add_right _ _, ?_⟩
              rw [Nat.add_sub_cancel_left]
              exact Dvd.intro i (Nat.mul_comm p i)
            rw [hbitj, Bool.or_false]
            exact hrel.2 j hj
    · rw [if_neg hcond, if_neg hcond]
      exact hrel

/-- `j` has a prime factor `q` below `p` whose square is at most `j` —
exactly the cells the sieve has crossed out by the time the outer loop
counter reaches `p`. -/
def HasSmallFactor (p j : Nat) : Prop :=
  ∃ q, Nat.Prime q ∧ q < p ∧ q ∣ j ∧ q * q ≤ j

theorem not_prime_of_sq_factor {j q : Nat} (hq : Nat.Prime q) (hdvd : q ∣ j)
    (hsq : q * q ≤ j) : ¬ j.Prime := by
  intro hj
  rcases hj.eq_one_or_self_of_dvd q hdvd with rfl | rfl
  · exact Nat.not_prime_one hq
  · have h2 := hq.two_le
    have : q * q ≤ q * 1 := by simpa using hsq
    have := Nat.le_of_mul_le_mul_left this (by omega)
    omega

theorem sq_factor_of_not_prime {j : Nat} (h2 : 2 ≤ j) (h : ¬ j.Prime) :
    ∃ q, Nat.Prime q ∧ q ∣ j ∧ q * q ≤ j := by
  refine ⟨j.minFac, Nat.minFac_prime (by omega), Nat.minFac_dvd j, ?_⟩
  have := Nat.minFac_sq_le_self (by omega) h
  simpa [pow_two] using this

/-- Main invariant of the sieve's outer loop: starting from a state in which
cell `j` is crossed out exactly when `HasSmallFactor p j`, the finished sieve
has cell `j` crossed out exactly when `j` has any prime factor `q` with
`q * q ≤ j`. -/
theorem sieveLoop_getD (n : Nat) :
    ∀ ofuel p l, 2 ≤ p → n + 1 - p ≤ ofuel → l.length = n + 1 →
      (∀ j, 2 ≤ j → j ≤ n → (l.getD j false = false ↔ HasSmallFactor p j)) →
      ∀ j, 2 ≤ j → j ≤ n →
        ((sieveLoop n p ofuel l).getD j false = false ↔
          ∃ q, Nat.Prime q ∧ q ∣ j ∧ q * q ≤ j) := by
  intro ofuel
  induction ofuel with
  | zero =>
    intro p l hp hfuel hlen hinv j hj2 hjn
    rw [sieveLoop, hinv j hj2 hjn]
    constructor
    · rintro ⟨q, hq, hlt, hdvd, hsq⟩
      exact ⟨q, hq, hdvd, hsq⟩
    · rintro ⟨q, hq, hdvd, hsq⟩
      refine ⟨q, hq, ?_, hdvd, hsq⟩
      have hq2 := hq.two_le
      have hqq : q ≤ q * q := Nat.le_mul_of_pos_left q (by omega)
      omega
  | succ ofuel ih =>
    intro p l hp hfuel hlen hinv j hj2 hjn
    rw [sieveLoop]
    by_cases hcond : p * p ≤ n
    · rw [if_pos hcond]
      have hpn : p ≤ n := le_trans (Nat.le_mul_of_pos_left p (by omega)) hcond
      by_cases hval : l.getD p false = true
      · rw [hval, if_pos rfl]
        have hnotS : ¬ HasSmallFactor p p := by
          intro hS
          have hf := (hinv p hp hpn).mpr hS
          rw [hval] at hf
          exact absurd hf (by decide)
        have hprime : p.Prime := by
          by_contra hnp
          obtain ⟨q, hq, hdvd, hsq⟩ := sq_factor_of_not_prime hp hnp
          have hqle : q ≤ p := Nat.le_of_dvd (by omega) hdvd
          have hqne : q ≠ p := by
            rintro rfl
            exact hnp hq
          exact hnotS ⟨q, hq, by omega, hdvd, hsq⟩
        refine ih (p + 1) _ (by omega) (by omega)
          (by rw [markMultiples_length]; exact hlen) ?_ j hj2 hjn
        intro j hj2 hjn
        rw [markMultiples_getD p n (by omega) (n + 1) (p * p) l j
          (Nat.sub_le _ _) hlen hjn]
        have hshift : (p * p ≤ j ∧ p ∣ (j - p * p)) ↔ (p ∣ j ∧ p * p ≤ j) := by
          constructor
          · rintro ⟨hle, hdvd⟩
            have heq : j = (j - p * p) + p * p := by omega
            exact ⟨heq ▸ Nat.dvd_add hdvd (Dvd.intro p rfl), hle⟩
          · rintro ⟨hdvd, hle⟩
            exact ⟨hle, Nat.dvd_sub' hdvd (Dvd.intro p rfl)⟩
        have hsplit : HasSmallFactor (p + 1) j ↔
            (p ∣ j ∧ p * p ≤ j) ∨ HasSmallFactor p j := by
          constructor
          · rintro ⟨q, hq, hlt, hdvd, hsq⟩
            by_cases hqp : q = p
            · subst hqp
              exact Or.inl ⟨hdvd, hsq⟩
            · exact Or.inr ⟨q, hq, by omega, hdvd, hsq⟩
          · rintro (⟨hdvd, hle⟩ | ⟨q, hq, hlt, hdvd, hsq⟩)
            · exact ⟨p, hprime, by omega, hdvd, hle⟩
            · exact ⟨q, hq, by omega, hdvd, hsq⟩
        rw [hsplit]
        by_cases hc : p * p ≤ j ∧ p ∣ (j - p * p)
        · rw [if_pos hc]
          simp only [true_iff]   -- false = false ↔ ...
          exact Or.inl (hshift.mp hc)
        · rw [if_neg hc, hinv j hj2 hjn]
          constructor
          · exact Or.inr
          · rintro (hl | hr)
            · exact absurd (hshift.mpr hl) hc
            · exact hr
      · have hvf : l.getD p false = false := by simpa using hval
        rw [hvf, if_neg Bool.false_ne_true]
        have hS : HasSmallFactor p p := (hinv p hp hpn).mp hvf
        have hnp : ¬ p.Prime := by
          obtain ⟨q, hq, hlt, hdvd, hsq⟩ := hS
          exact not_prime_of_sq_factor hq hdvd hsq
        refine ih (p + 1) l (by omega) (by omega) hlen ?_ j hj2 hjn
        intro j hj2 hjn
        rw [hinv j hj2 hjn]
        constructor
        · rintro ⟨q, hq, hlt, hdvd, hsq⟩
          exact ⟨q, hq, by omega, hdvd, hsq⟩
        · rintro ⟨q, hq, hlt, hdvd, hsq⟩
          have hqp : q ≠ p := by
            rintro rfl
            exact hnp hq
          exact ⟨q, hq, by omega, hdvd, hsq⟩
    · rw [if_neg hcond, hinv j hj2 hjn]
      constructor
      · rintro ⟨q, hq, hlt, hdvd, hsq⟩
        exact ⟨q, hq, hdvd, hsq⟩
      · rintro ⟨q, hq, hdvd, hsq⟩
        refine ⟨q, hq, ?_, hdvd, hsq⟩
        by_contra hge
        have : p * p ≤ q * q := Nat.mul_le_mul (by omega) (by omega)
        omega

theorem foldl_count (f : Nat → Bool) :
    ∀ (xs : List Nat) (c : Nat),
      xs.foldl (fun c p => if f p then c + 1 else c) c = c + xs.countP f := by
  intro xs
  induction xs with
  | nil => intro c; simp
  | cons a xs ih =>
    intro c
    rw [List.foldl_cons, ih, List.countP_cons]
    by_cases h : f a
    · rw [if_pos h, if_pos h]
      omega
    · rw [if_neg h, if_neg h]
      omega

theorem countZeroBits_countP (m : Nat) :
    ∀ fuel lo len, len ≤ 2 ^ fuel →
      countZeroBits m fuel lo len
        = (List.range' lo len).countP (fun j => !(m.testBit j)) := by
  intro fuel
  induction fuel with
  | zero =>
    intro lo len hlen
    simp only [pow_zero] at hlen
    have hl : len = 0 ∨ len = 1 := by omega
    rcases hl with rfl | rfl
    · simp [countZeroBits]
    · rw [countZeroBits, if_pos rfl]
      simp only [List.range']
      rw [List.countP_cons, List.countP_nil]
      by_cases h : m.testBit lo
      · simp [h]
      · simp [h]
  | succ fuel ih =>
    intro lo len hlen
    rw [countZeroBits]
    by_cases h0 : len = 0
    · subst h0; simp
    · rw [if_neg h0]
      by_cases h1 : len = 1
      · subst h1
        rw [if_pos rfl]
        simp only [List.range']
        rw [List.countP_cons, List.countP_nil]
        by_cases h : m.testBit lo
        · simp [h]
        · simp [h]
      · rw [if_neg h1]
        have hpow : 2 ^ (fuel + 1) = 2 ^ fuel * 2 := pow_succ 2 fuel
        have hsplit : List.range' lo len
            = List.range' lo (len / 2) ++ List.range' (lo + len / 2) (len - len / 2) := by
          rw [List.range'_append_1]
          congr 1
          omega
        rw [hsplit, List.countP_append, ih lo (len / 2) (by omega),
          ih (lo + len / 2) (len - len / 2) (by omega)]

theorem replicate_init_rel (n : Nat) : SieveRel n (List.replicate (n + 1) true) 0 := by
  constructor
  · simp
  · intro j hj
    rw [Nat.zero_testBit]
    simp [List.getD_eq_getElem?_getD, List.getElem?_replicate, Nat.lt_succ_of_le hj]

theorem count_primes_eq_M (fuel n : Nat) (hfuel : n + 1 ≤ 2 ^ fuel) :
    count_primes n = count_primesM fuel n := by
  have hrel : SieveRel n (sieveLoop n 2 (n + 1) (List.replicate (n + 1) true))
      (sieveLoopM n fuel 2 (n + 1) 0) :=
    sieveLoop_rel n fuel hfuel (n + 1) 2 _ 0 (le_refl 2) (replicate_init_rel n)
  rw [count_primes, count_primesM,
    foldl_count (fun p => (sieveLoop n 2 (n + 1) (List.replicate (n + 1) true)).getD p false)
      (List.range' 2 (n - 1)) 0,
    countZeroBits_countP (sieveLoopM n fuel 2 (n + 1) 0) fuel 2 (n - 1) (by omega),
    Nat.zero_add]
  apply List.countP_congr
  intro x hx
  rw [List.mem_range'_1] at hx
  have hxn : x ≤ n := by omega
  rw [hrel.2 x hxn]

theorem prime_iff_no_sq_factor {j : Nat} (h2 : 2 ≤ j) :
    Nat.Prime j ↔ ¬ ∃ q, Nat.Prime q ∧ q ∣ j ∧ q * q ≤ j := by
  constructor
  · rintro hj ⟨q, hq, hdvd, hsq⟩
    exact not_prime_of_sq_factor hq hdvd hsq hj
  · intro h
    by_contra hnp
    exact h (sq_factor_of_not_prime h2 hnp)

theorem count_primes_char (n : Nat) :
    count_primes n
      = (List.range' 2 (n - 1)).countP (fun j => decide (Nat.Prime j)) := by
  rw [count_primes,
    foldl_count (fun p => (sieveLoop n 2 (n + 1) (List.replicate (n + 1) true)).getD p false)
      (List.range' 2 (n - 1)) 0,
    Nat.zero_add]
  apply List.countP_congr
  intro x hx
  rw [List.mem_range'_1] at hx
  have hx2 : 2 ≤ x := hx.1
  have hxn : x ≤ n := by omega
  have hinit : ∀ j, 2 ≤ j → j ≤ n →
      ((List.replicate (n + 1) true).getD j false = false ↔ HasSmallFactor 2 j) := by
    intro j hj2 hjn
    have hv : (List.replicate (n + 1) true).getD j false = true := by
      simp [List.getD_eq_getElem?_getD, List.getElem?_replicate, Nat.lt_succ_of_le hjn]
    rw [hv]
    constructor
    · intro h
      exact absurd h (by decide)
    · rintro ⟨q, hq, hlt, -, -⟩
      have := hq.two_le
      omega
  have hfinal := sieveLoop_getD n (n + 1) 2 (List.replicate (n + 1) true)
    (le_refl 2) (by omega) (by simp) hinit x hx2 hxn
  rw [decide_eq_true_eq]
  rcases hb : (sieveLoop n 2 (n + 1) (List.replicate (n + 1) true)).getD x false with _ | _
  · rw [hb] at hfinal
    simp only [true_iff] at hfinal
    constructor
    · intro h
      exact absurd h (by decide)
    · intro h
      exact absurd hfinal ((prime_iff_no_sq_factor hx2).mp h)
  · rw [hb] at hfinal
    constructor
    · intro _
      rw [prime_iff_no_sq_factor hx2]
      intro hex
      exact absurd (hfinal.mpr hex) (by decide)
    · intro _
      rfl

theorem range'_countP_eq_card (n : Nat) :
    (List.range' 2 (n - 1)).countP (fun j => decide (Nat.Prime j))
      = ((Finset.Icc 2 n).filter Nat.Prime).card := by
  rw [Nat.Icc_eq_range']
  rw [Finset.card_def, Finset.filter_val]
  have h21 : n + 1 - 2 = n - 1 := by omega
  rw [h21]
  rw [Multiset.filter_coe, Multiset.coe_card, ← List.countP_eq_length_filter]

set_option maxRecDepth 10000 in
/-- **C8**: for every `n ≥ 2`, `count_primes n` returns exactly the number
of prime numbers `p` with `2 ≤ p ≤ n`; in particular
`count_primes 10000 = 1229`. -/
theorem count_primes_correct :
    (∀ n, 2 ≤ n → count_primes n = ((Finset.Icc 2 n).filter Nat.Prime).card)
      ∧ count_primes 10000 = 1229 := by
  constructor
  · intro n hn
    rw [count_primes_char n, range'_countP_eq_card n]
  · rw [count_primes_eq_M 16 10000 (by norm_num)]
    decide

/-- Witness for `count_primes_correct` at the concrete input `n = 4`. -/
theorem count_primes_correct_witness :
    2 ≤ 4 ∧ count_primes 4 = ((Finset.Icc 2 4).filter Nat.Prime).card :=
  ⟨by decide, count_primes_correct.1 4 (by decide)⟩

/-!
## `is_termination_msg` from the swarm-orchestration guide

```
def is_termination_msg(msg: dict[str, Any]) -> bool:
    content = msg.get("content", "")
    return (content is not None) and "==== SUMMARY GENERATED ====" in content
```

A message dictionary is modelled by its `"content"` entry alone: `none`
means the key is absent, `some none` means the value is Python's `None`,
and `some (some s)` means the value is the string `s`.  Python's `in` test
on strings is substring containment, modelled as `List.IsInfix` on the
character lists.
-/

/-- The value of `msg.get("content", "")`: the default `""` when the key is
absent, the stored value otherwise. -/
def getContent (msg_content : Option (Option String)) : Option String :=
  match msg_content with
  | none => some ""
  | some v => v

/-- The termination marker looked for by `is_termination_msg`. -/
def summaryMarker : String := "==== SUMMARY GENERATED ===="

/-- `is_termination_msg` from the source: `content is not None` and the
marker occurs in `content`. -/
def is_termination_msg (msg_content : Option (Option String)) : Bool :=
  match getContent msg_content with
  | none => false
  | some s => decide (summaryMarker.data <:+: s.data)

/-!
## `exchange_rate` from the DeepSeek tool-calling example

```
CurrencySymbol = Literal["USD", "EUR"]

def exchange_rate(base_currency: CurrencySymbol, quote_currency: CurrencySymbol) -> float:
    if base_currency == quote_currency:
        return 1.0
    elif base_currency == "USD" and quote_currency == "EUR":
        return 1 / 1.1
    elif base_currency == "EUR" and quote_currency == "USD":
        return 1.1
    else:
        raise ValueError(f"Unknown currencies {base_currency}, {quote_currency}")
```

Read over exact rationals (the literal `1.1` is the rational `11 / 10`),
with `raise ValueError` modelled by the `Except.error` branch.
-/

inductive CurrencySymbol where
  | USD
  | EUR
deriving DecidableEq

open CurrencySymbol in
/-- `exchange_rate` from the source, over exact rationals. -/
def exchange_rate (base_currency quote_currency : CurrencySymbol) : Except String ℚ :=
  if base_currency = quote_currency then .ok 1
  else if base_currency = USD ∧ quote_currency = EUR then .ok (1 / (11 / 10))
  else if base_currency = EUR ∧ quote_currency = USD then .ok (11 / 10)
  else .error "Unknown currencies"

/-- **C9**: `is_termination_msg` returns `True` exactly when the `content`
value is a string containing the summary marker; it returns `False`
(without raising) when the `content` key is absent or its value is `None`. -/
theorem is_termination_msg_spec :
    (∀ c : Option (Option String),
      (is_termination_msg c = true ↔
        ∃ s : String, c = some (some s) ∧ summaryMarker.data <:+: s.data))
    ∧ is_termination_msg none = false
    ∧ is_termination_msg (some none) = false := by
  refine ⟨?_, by decide, rfl⟩
  intro c
  match c with
  | none =>
    constructor
    · intro h
      have : is_termination_msg none = false := by decide
      rw [this] at h
      exact absurd h (by decide)
    · rintro ⟨s, h, -⟩
      exact absurd h (by simp)
  | some none =>
    constructor
    · intro h
      exact absurd h (by decide)
    · rintro ⟨s, h, -⟩
      exact absurd h (by simp)
  | some (some s) =>
    show decide (summaryMarker.data <:+: s.data) = true ↔ _
    rw [decide_eq_true_eq]
    constructor
    · intro h
      exact ⟨s, rfl, h⟩
    · rintro ⟨s', heq, h⟩
      obtain rfl : s' = s := by
        injection heq with h1
        injection h1 with h2
        exact h2.symm
      exact h

/-- **C10**: on the declared domain `{USD, EUR}`, the exchange rates in the
two directions are exact rational inverses, and the `ValueError` branch is
unreachable (both calls return `ok`). -/
theorem exchange_rate_inverse :
    ∀ b q : CurrencySymbol, ∃ r r' : ℚ,
      exchange_rate b q = .ok r ∧ exchange_rate q b = .ok r' ∧ r * r' = 1 := by
  intro b q
  cases b <;> cases q
  · exact ⟨1, 1, rfl, rfl, by norm_num⟩
  · exact ⟨1 / (11 / 10), 11 / 10, rfl, rfl, by norm_num⟩
  · exact ⟨11 / 10, 1 / (11 / 10), rfl, rfl, by norm_num⟩
  · exact ⟨1, 1, rfl, rfl, by norm_num⟩

/-!
## The swarm hand-off / after-work routing protocol

The router itself is implemented by the external AG2 framework; this
repository only documents and calls it.  The definitions below are
therefore modelled from the specification (sections 2-5 and 7): the
participant registry, the context store, per-participant ordered hand-off
rules with an after-work fallback, the turn dispatcher with its
termination evaluator, the orchestration-manager fallback, and the
session state machine.
-/

/-- Modelled from the spec: participant names; the Participant Registry (absent from this repository's sources) holds the addressable participants. -/
abbrev PName := String

/-- Modelled from the spec: a participant's produced output for one turn. -/
abbrev Output := String

/-- Modelled from the spec: values stored in the Context Store. -/
abbrev CtxVal := String

/-- Modelled from the spec: the Context Store, a shared key-value mapping.
Writes prepend and reads take the most recent binding, giving
last-write-wins semantics. -/
def Ctx := List (String × CtxVal)

/-- Modelled from the spec: `get(key)` of the Context Store. -/
def ctxGet : Ctx → String → Option CtxVal
  | [], _ => none
  | (k, v) :: rest, key => if k = key then some v else ctxGet rest key

/-- Modelled from the spec: `set(key, value)` of the Context Store. -/
def ctxSet (c : Ctx) (k : String) (v : CtxVal) : Ctx := (k, v) :: c

/-- Modelled from the spec: apply a turn's writes to the Context Store, in program order. -/
def applyWrites : Ctx → List (String × CtxVal) → Ctx
  | c, [] => c
  | c, (k, v) :: ws => applyWrites (ctxSet c k v) ws

/-- Modelled from the spec: the target of a hand-off rule or fallback
policy — a specific participant, the orchestration manager, the human
proxy, or terminate. -/
inductive Target where
  | agent (p : PName)
  | manager
  | human
  | terminate
deriving DecidableEq

/-- Modelled from the spec: a hand-off rule — a condition over the latest
output and the context, and a target. -/
structure HandoffRule where
  cond : Output → Ctx → Bool
  target : Target

/-- Modelled from the spec: the session-level state machine
`INIT → RUNNING → … → TERMINATED`. -/
inductive SessionState where
  | INIT
  | RUNNING
  | AWAITING_HUMAN_INPUT
  | TERMINATED
deriving DecidableEq

/-- Modelled from the spec: a turn — participant, produced output and
index; immutable once recorded. -/
structure Turn where
  participant : PName
  output : Output
  index : Nat
deriving DecidableEq

/-- Modelled from the spec: the fatal error taxonomy of the router. -/
inductive RouterError where
  | ConfigurationError (msg : String)
  | NoSelectionMade
deriving DecidableEq

/-- Modelled from the spec: the outcome of one `advance` call. -/
inductive NextStep where
  | invoke (p : PName)
  | requestHumanInput
  | terminate
deriving DecidableEq

/-- Modelled from the spec: a session — registry, rule tables, fallback
policies, the pluggable orchestration-manager selector, the termination
evaluator, the transcript, the context store, the current participant,
the session state, the cancellation flag and the recorded fatal-error
reason. -/
structure Session where
  registry : List PName
  rules : PName → List HandoffRule
  fallback : PName → Target
  managerSelect : List Turn → Ctx → Target
  termEval : Output → Bool
  transcript : List Turn
  ctx : Ctx
  current : PName
  state : SessionState
  cancelled : Bool
  errorReason : Option String

/-- Modelled from the spec: the most recent turn's output (the empty
initial input before any turn). -/
def latestOutput (s : Session) : Output :=
  match s.transcript.getLast? with
  | none => ""
  | some t => t.output

/-- Modelled from the spec: first-match rule evaluation, in declaration
order. -/
def firstMatch : List HandoffRule → Output → Ctx → Option Target
  | [], _, _ => none
  | r :: rs, out, c => if r.cond out c then some r.target else firstMatch rs out c

/-- Modelled from the spec: resolve a target into a `NextStep`, checking
registry membership; a
rule naming an unregistered participant is a `ConfigurationError`, a
manager selection outside the registry is `NoSelectionMade`. -/
def resolveTarget (s : Session) : Target → Except RouterError NextStep
  | .agent p =>
    if p ∈ s.registry then .ok (.invoke p)
    else .error (.ConfigurationError "rule targets unknown participant")
  | .manager =>
    match s.managerSelect s.transcript s.ctx with
    | .agent p => if p ∈ s.registry then .ok (.invoke p) else .error .NoSelectionMade
    | .terminate => .ok .terminate
    | _ => .error .NoSelectionMade
  | .human => .ok .requestHumanInput
  | .terminate => .ok .terminate

/-- Modelled from the spec: `advance(session)`.  Cancellation is checked
before each advance; then the termination evaluator runs on the latest
output; then the current participant's rules are evaluated in declaration
order; only if none matches is the fallback policy applied. -/
def advance (s : Session) : Except RouterError NextStep :=
  if s.cancelled then .ok .terminate
  else if s.termEval (latestOutput s) then .ok .terminate
  else
    match firstMatch (s.rules s.current) (latestOutput s) s.ctx with
    | some t => resolveTarget s t
    | none => resolveTarget s (s.fallback s.current)

/-- Modelled from the spec: record one turn — append it with index equal
to the transcript length,
fold the turn's context writes into the store, and hand control to the
acting participant. -/
def execTurn (s : Session) (p : PName) (out : Output)
    (ws : List (String × CtxVal)) : Session :=
  { s with
    transcript := s.transcript ++ [⟨p, out, s.transcript.length⟩]
    ctx := applyWrites s.ctx ws
    current := p
    state := .RUNNING }

/-- Modelled from the spec: what a participant does when invoked — the
produced output and the
context-store writes of the turn.  Supplied externally. -/
abbrev Producer := PName → Session → Output × List (String × CtxVal)

/-- Modelled from the spec: printable reasons for the fatal errors. -/
def describeError : RouterError → String
  | .ConfigurationError msg => "ConfigurationError: " ++ msg
  | .NoSelectionMade => "NoSelectionMade"

/-- Modelled from the spec: one step of the session loop — a terminated
session is left untouched;
otherwise `advance` picks the next step, a chosen participant acts and its
turn is recorded, a terminate outcome ends the session, and a fatal error
aborts the session, marking it TERMINATED with the error reason recorded. -/
def stepSession (produce : Producer) (s : Session) : Session :=
  if s.state = .TERMINATED then s
  else
    match advance s with
    | .ok .terminate => { s with state := .TERMINATED }
    | .ok (.invoke p) =>
      let act := produce p s
      execTurn s p act.1 act.2
    | .ok .requestHumanInput => { s with state := .AWAITING_HUMAN_INPUT }
    | .error e =>
      { s with state := .TERMINATED, errorReason := some (describeError e) }

/-- Modelled from the spec: run `n` steps of the session loop. -/
def runSteps (produce : Producer) : Nat → Session → Session
  | 0, s => s
  | n + 1, s => runSteps produce n (stepSession produce s)

/-- Modelled from the spec: a target is admissible when any participant it
names is registered. -/
def targetOk (registry : List PName) : Target → Bool
  | .agent p => p ∈ registry
  | _ => true

/-- Modelled from the spec: configuration validation — every rule target
and every fallback target
of every registered participant must be admissible. -/
def validConfig (registry : List PName) (rules : PName → List HandoffRule)
    (fallback : PName → Target) : Bool :=
  registry.all fun p =>
    ((rules p).all fun r => targetOk registry r.target) && targetOk registry (fallback p)

/-- Modelled from the spec: `start_session`.  Validates the configuration
before creating the session; an unknown hand-off target is surfaced here,
as a `ConfigurationError`, before any `advance` runs. -/
def start_session (registry : List PName) (rules : PName → List HandoffRule)
    (fallback : PName → Target) (managerSelect : List Turn → Ctx → Target)
    (termEval : Output → Bool) (initial : PName) (c : Ctx) :
    Except RouterError Session :=
  if initial ∈ registry then
    if validConfig registry rules fallback then
      .ok
        { registry := registry
          rules := rules
          fallback := fallback
          managerSelect := managerSelect
          termEval := termEval
          transcript := []
          ctx := c
          current := initial
          state := .INIT
          cancelled := false
          errorReason := none }
    else .error (.ConfigurationError "rule targets unknown participant")
  else .error (.ConfigurationError "initial participant not registered")

/-!  ### Rule evaluation order  -/

theorem firstMatch_all_false (out : Output) (c : Ctx) :
    ∀ rs : List HandoffRule, (∀ r ∈ rs, r.cond out c = false) →
      firstMatch rs out c = none := by
  intro rs
  induction rs with
  | nil => intro _; rfl
  | cons r rs ih =>
    intro h
    rw [firstMatch, h r (List.mem_cons_self r rs), if_neg Bool.false_ne_true]
    exact ih fun r hr => h r (List.mem_cons_of_mem _ hr)

theorem firstMatch_first (out : Output) (c : Ctx) :
    ∀ (rs : List HandoffRule) (i : Nat) (hi : i < rs.length),
      (rs.get ⟨i, hi⟩).cond out c = true →
      (∀ j (hj : j < i), (rs.get ⟨j, Nat.lt_trans hj hi⟩).cond out c = false) →
      firstMatch rs out c = some (rs.get ⟨i, hi⟩).target := by
  intro rs
  induction rs with
  | nil =>
    intro i hi
    exact absurd hi (by simp)
  | cons r rs ih =>
    intro i hi hcond hprev
    cases i with
    | zero =>
      rw [firstMatch]
      have hc0 : r.cond out c = true := hcond
      rw [hc0, if_pos rfl]
      rfl
    | succ i =>
      rw [firstMatch]
      have h0 : r.cond out c = false := hprev 0 (Nat.succ_pos i)
      rw [h0, if_neg Bool.false_ne_true]
      have hi2 : i < rs.length := Nat.lt_of_succ_lt_succ hi
      have hcond2 : (rs.get ⟨i, hi2⟩).cond out c = true := hcond
      exact ih i hi2 hcond2 fun j hj => hprev (j + 1) (Nat.succ_lt_succ hj)

theorem firstMatch_elim (out : Output) (c : Ctx) :
    ∀ (rs : List HandoffRule) (t : Target), firstMatch rs out c = some t →
      ∃ k, ∃ hk : k < rs.length,
        (rs.get ⟨k, hk⟩).cond out c = true ∧ t = (rs.get ⟨k, hk⟩).target ∧
        ∀ j (hj : j < k), (rs.get ⟨j, Nat.lt_trans hj hk⟩).cond out c = false := by
  intro rs
  induction rs with
  | nil =>
    intro t h
    rw [firstMatch] at h
    exact absurd h (by simp)
  | cons r rs ih =>
    intro t h
    rw [firstMatch] at h
    by_cases hc : r.cond out c = true
    · rw [if_pos hc] at h
      refine ⟨0, Nat.succ_pos _, hc, (Option.some.inj h).symm, ?_⟩
      intro j hj
      exact absurd hj (Nat.not_lt_zero j)
    · rw [if_neg hc] at h
      obtain ⟨k, hk, h1, h2, h3⟩ := ih t h
      have hk2 : k + 1 < (r :: rs).length := Nat.succ_lt_succ hk
      refine ⟨k + 1, hk2, h1, h2, ?_⟩
      intro j hj
      cases j with
      | zero => exact Bool.eq_false_iff.mpr hc
      | succ j => exact h3 j (Nat.lt_of_succ_lt_succ hj)

theorem firstMatch_isSome (out : Output) (c : Ctx) :
    ∀ (rs : List HandoffRule) (i : Nat) (hi : i < rs.length),
      (rs.get ⟨i, hi⟩).cond out c = true → (firstMatch rs out c).isSome = true := by
  intro rs
  induction rs with
  | nil =>
    intro i hi
    exact absurd hi (by simp)
  | cons r rs ih =>
    intro i hi hcond
    rw [firstMatch]
    by_cases hc : r.cond out c = true
    · rw [if_pos hc]
      rfl
    · rw [if_neg hc]
      cases i with
      | zero => exact absurd hcond hc
      | succ i => exact ih i (Nat.lt_of_succ_lt_succ hi) hcond

/-- **C1**: on every advance of a live (non-cancelled) session the
dispatcher proceeds in the fixed order: the termination evaluator first
(`terminate` if it signals); otherwise the first matching hand-off rule in
declaration order; the fallback policy only when no rule matches; and
whenever several rules match, the earliest-declared matching rule is the
one whose target is returned. -/
theorem advance_dispatch_order (s : Session) (hc : s.cancelled = false) :
    (s.termEval (latestOutput s) = true → advance s = .ok .terminate)
    ∧ (s.termEval (latestOutput s) = false →
        ∀ i (hi : i < (s.rules s.current).length),
          ((s.rules s.current).get ⟨i, hi⟩).cond (latestOutput s) s.ctx = true →
          (∀ j (hj : j < i),
            ((s.rules s.current).get ⟨j, Nat.lt_trans hj hi⟩).cond
              (latestOutput s) s.ctx = false) →
          advance s = resolveTarget s ((s.rules s.current).get ⟨i, hi⟩).target)
    ∧ (s.termEval (latestOutput s) = false →
        (∀ r ∈ s.rules s.current, r.cond (latestOutput s) s.ctx = false) →
        advance s = resolveTarget s (s.fallback s.current))
    ∧ (s.termEval (latestOutput s) = false →
        ∀ i₁ i₂ (h1 : i₁ < (s.rules s.current).length)
          (h2 : i₂ < (s.rules s.current).length),
          ((s.rules s.current).get ⟨i₁, h1⟩).cond (latestOutput s) s.ctx = true →
          ((s.rules s.current).get ⟨i₂, h2⟩).cond (latestOutput s) s.ctx = true →
          ∃ k, ∃ hk : k < (s.rules s.current).length, k ≤ i₁ ∧ k ≤ i₂ ∧
            ((s.rules s.current).get ⟨k, hk⟩).cond (latestOutput s) s.ctx = true ∧
            advance s = resolveTarget s ((s.rules s.current).get ⟨k, hk⟩).target) := by
  have hnc : ¬ (s.cancelled = true) := by
    rw [hc]
    exact Bool.false_ne_true
  refine ⟨?_, ?_, ?_, ?_⟩
  · intro ht
    rw [advance, if_neg hnc, ht, if_pos rfl]
  · intro ht i hi hcond hprev
    have hnt : ¬ (s.termEval (latestOutput s) = true) := by
      rw [ht]
      exact Bool.false_ne_true
    rw [advance, if_neg hnc, if_neg hnt,
      firstMatch_first (latestOutput s) s.ctx (s.rules s.current) i hi hcond hprev]
  · intro ht hall
    have hnt : ¬ (s.termEval (latestOutput s) = true) := by
      rw [ht]
      exact Bool.false_ne_true
    rw [advance, if_neg hnc, if_neg hnt,
      firstMatch_all_false (latestOutput s) s.ctx (s.rules s.current) hall]
  · intro ht i₁ i₂ h1 h2 hc1 hc2
    have hnt : ¬ (s.termEval (latestOutput s) = true) := by
      rw [ht]
      exact Bool.false_ne_true
    have hsome := firstMatch_isSome (latestOutput s) s.ctx (s.rules s.current) i₁ h1 hc1
    obtain ⟨t, htfm⟩ := Option.isSome_iff_exists.mp hsome
    obtain ⟨k, hk, hkc, rfl, hkprev⟩ :=
      firstMatch_elim (latestOutput s) s.ctx (s.rules s.current) t htfm
    have hle1 : k ≤ i₁ := by
      by_contra hgt
      have hfalse : ((s.rules s.current).get ⟨i₁, h1⟩).cond (latestOutput s) s.ctx = false :=
        hkprev i₁ (by omega)
      rw [hc1] at hfalse
      exact absurd hfalse (by decide)
    have hle2 : k ≤ i₂ := by
      by_contra hgt
      have hfalse : ((s.rules s.current).get ⟨i₂, h2⟩).cond (latestOutput s) s.ctx = false :=
        hkprev i₂ (by omega)
      rw [hc2] at hfalse
      exact absurd hfalse (by decide)
    refine ⟨k, hk, hle1, hle2, hkc, ?_⟩
    rw [advance, if_neg hnc, if_neg hnt, htfm]

/-- Witness for `advance_dispatch_order`: a concrete two-rule session with
overlapping conditions; the fallback clause is exercised. -/
def sessEx : Session :=
  { registry := ["A", "B", "C"]
    rules := fun p =>
      if p = "A" then
        [⟨fun out _ => out == "go", Target.agent "B"⟩,
         ⟨fun out _ => out == "go", Target.agent "C"⟩]
      else []
    fallback := fun _ => Target.terminate
    managerSelect := fun _ _ => Target.agent "A"
    termEval := fun out => out == "STOP"
    transcript := [⟨"A", "go", 0⟩]
    ctx := []
    current := "A"
    state := SessionState.RUNNING
    cancelled := false
    errorReason := none }

/-- The producer used by the witnesses. -/
def prodEx : Producer := fun p _ => (p ++ ":out", [("k", "v")])

theorem advance_dispatch_order_witness :
    sessEx.cancelled = false
    ∧ (sessEx.termEval (latestOutput sessEx) = false →
        (∀ r ∈ sessEx.rules sessEx.current,
          r.cond (latestOutput sessEx) sessEx.ctx = false) →
        advance sessEx = resolveTarget sessEx (sessEx.fallback sessEx.current)) :=
  ⟨rfl, (advance_dispatch_order sessEx rfl).2.2.1⟩

/-- A terminated session is left untouched by the loop. -/
theorem stepSession_terminated (produce : Producer) (s : Session)
    (h : s.state = .TERMINATED) : stepSession produce s = s := by
  rw [stepSession, if_pos h]

/-- **C2**: whenever the termination evaluator signals on the latest
output, the next `advance` returns terminate and the session becomes
TERMINATED, regardless of the rule table. -/
theorem advance_termination_first (s : Session) (produce : Producer)
    (h : s.termEval (latestOutput s) = true) :
    advance s = .ok .terminate ∧ (stepSession produce s).state = .TERMINATED := by
  have hadv : advance s = .ok .terminate := by
    rw [advance]
    by_cases hcan : s.cancelled = true
    · rw [if_pos hcan]
    · rw [if_neg hcan, h, if_pos rfl]
  refine ⟨hadv, ?_⟩
  by_cases hs : s.state = .TERMINATED
  · rw [stepSession_terminated produce s hs]
    exact hs
  · rw [stepSession, if_neg hs, hadv]

/-- A session whose last recorded output triggers the termination
evaluator. -/
def sessT : Session := { sessEx with transcript := [⟨"A", "STOP", 0⟩] }

/-- Witness for `advance_termination_first` at the concrete session
`sessT`. -/
theorem advance_termination_first_witness :
    sessT.termEval (latestOutput sessT) = true
    ∧ (advance sessT = .ok .terminate
        ∧ (stepSession prodEx sessT).state = .TERMINATED) :=
  ⟨rfl, advance_termination_first sessT prodEx rfl⟩

/-- **C7**: TERMINATED is absorbing — a terminated session is never
changed again and no further turns are recorded — and a pending
cancellation is checked before the advance and short-circuits straight to
TERMINATED without recording a turn. -/
theorem terminated_absorbing (s : Session) (produce : Producer) (n : Nat) :
    (s.state = .TERMINATED → runSteps produce n s = s)
    ∧ (s.state ≠ .TERMINATED → s.cancelled = true →
        (stepSession produce s).state = .TERMINATED
        ∧ (stepSession produce s).transcript = s.transcript) := by
  constructor
  · intro hs
    induction n with
    | zero => rfl
    | succ n ih =>
      rw [runSteps, stepSession, if_pos hs]
      exact ih
  · intro hs hcan
    have hadv : advance s = .ok .terminate := by
      rw [advance, if_pos hcan]
    rw [stepSession, if_neg hs, hadv]
    exact ⟨rfl, rfl⟩

/-- A terminated session. -/
def sessDone : Session := { sessEx with state := SessionState.TERMINATED }

/-- A cancelled session. -/
def sessC : Session := { sessEx with cancelled := true }

/-- Witness for `terminated_absorbing` at the concrete sessions `sessDone`
and `sessC`. -/
theorem terminated_absorbing_witness :
    (sessDone.state = SessionState.TERMINATED ∧ runSteps prodEx 3 sessDone = sessDone)
    ∧ (sessC.state ≠ SessionState.TERMINATED ∧ sessC.cancelled = true
        ∧ (stepSession prodEx sessC).state = SessionState.TERMINATED
        ∧ (stepSession prodEx sessC).transcript = sessC.transcript) :=
  ⟨⟨rfl, (terminated_absorbing sessDone prodEx 3).1 rfl⟩,
   ⟨by decide, rfl,
    (terminated_absorbing sessC prodEx 0).2 (by decide) rfl⟩⟩

/-- **C6**: every fatal error aborts the session — TERMINATED, with the
error reason recorded, no turn appended and no retry; in particular a
manager fallback selecting an unregistered participant raises
`NoSelectionMade` and is treated exactly this way. -/
theorem fatal_error_aborts (s : Session) (produce : Producer)
    (hs : s.state ≠ .TERMINATED) :
    (∀ e : RouterError, advance s = .error e →
      stepSession produce s
        = { s with state := .TERMINATED, errorReason := some (describeError e) })
    ∧ (s.cancelled = false → s.termEval (latestOutput s) = false →
       firstMatch (s.rules s.current) (latestOutput s) s.ctx = none →
       s.fallback s.current = .manager →
       ∀ q, s.managerSelect s.transcript s.ctx = .agent q → q ∉ s.registry →
         advance s = .error .NoSelectionMade
         ∧ (stepSession produce s).state = .TERMINATED
         ∧ (stepSession produce s).errorReason = some (describeError .NoSelectionMade)
         ∧ (stepSession produce s).transcript = s.transcript) := by
  constructor
  · intro e he
    rw [stepSession, if_neg hs, he]
  · intro hcan ht hfm hfb q hq hqreg
    have hadv : advance s = .error .NoSelectionMade := by
      rw [advance, if_neg (by rw [hcan]; exact Bool.false_ne_true),
        if_neg (by rw [ht]; exact Bool.false_ne_true), hfm, hfb]
      show (match s.managerSelect s.transcript s.ctx with
        | Target.agent p =>
          if p ∈ s.registry then Except.ok (NextStep.invoke p)
          else Except.error RouterError.NoSelectionMade
        | Target.terminate => Except.ok NextStep.terminate
        | _ => Except.error RouterError.NoSelectionMade) = Except.error RouterError.NoSelectionMade
      rw [hq]
      show (if q ∈ s.registry then Except.ok (NextStep.invoke q)
        else Except.error RouterError.NoSelectionMade) = Except.error RouterError.NoSelectionMade
      rw [if_neg hqreg]
    refine ⟨hadv, ?_, ?_, ?_⟩ <;> rw [stepSession, if_neg hs, hadv]

/-- A session whose fallback defers to a manager that returns an
unregistered participant. -/
def sessM : Session :=
  { sessEx with
    current := "B"
    fallback := fun _ => Target.manager
    managerSelect := fun _ _ => Target.agent "Z" }

/-- Witness for `fatal_error_aborts` at the concrete session `sessM`. -/
theorem fatal_error_aborts_witness :
    sessM.state ≠ SessionState.TERMINATED
    ∧ sessM.cancelled = false
    ∧ sessM.termEval (latestOutput sessM) = false
    ∧ firstMatch (sessM.rules sessM.current) (latestOutput sessM) sessM.ctx = none
    ∧ sessM.fallback sessM.current = Target.manager
    ∧ sessM.managerSelect sessM.transcript sessM.ctx = Target.agent "Z"
    ∧ "Z" ∉ sessM.registry
    ∧ (advance sessM = .error .NoSelectionMade
       ∧ (stepSession prodEx sessM).state = .TERMINATED
       ∧ (stepSession prodEx sessM).errorReason = some (describeError .NoSelectionMade)
       ∧ (stepSession prodEx sessM).transcript = sessM.transcript) :=
  ⟨by decide, rfl, rfl, rfl, rfl, rfl, by decide,
   (fatal_error_aborts sessM prodEx (by decide)).2 rfl rfl rfl rfl "Z" rfl (by decide)⟩

/-!  ### Context-store visibility across turns  -/

/-- Modelled from the spec: one turn's behaviour — acting participant,
produced output, and the turn's context-store writes. -/
abbrev TurnAction := PName × Output × List (String × CtxVal)

/-- Modelled from the spec: record a sequence of turns. -/
def runTurns : Session → List TurnAction → Session
  | s, [] => s
  | s, a :: as => runTurns (execTurn s a.1 a.2.1 a.2.2) as

/-- Modelled from the spec: the last value a list of writes assigns to
`key`, if any. -/
def lastWrite : List (String × CtxVal) → String → Option CtxVal
  | [], _ => none
  | (k, v) :: ws, key =>
    match lastWrite ws key with
    | some v2 => some v2
    | none => if k = key then some v else none

theorem ctxGet_applyWrites :
    ∀ (ws : List (String × CtxVal)) (c : Ctx) (key : String),
      ctxGet (applyWrites c ws) key
        = match lastWrite ws key with
          | some v => some v
          | none => ctxGet c key := by
  intro ws
  induction ws with
  | nil => intro c key; rfl
  | cons kv ws ih =>
    intro c key
    obtain ⟨k, v⟩ := kv
    rw [applyWrites, ih (ctxSet c k v) key, lastWrite]
    cases hlw : lastWrite ws key with
    | some v2 => rfl
    | none =>
      show ctxGet (ctxSet c k v) key = _
      by_cases hk : k = key
      · rw [if_pos hk]
        show (if k = key then some v else ctxGet c key) = some v
        rw [if_pos hk]
      · rw [if_neg hk]
        show (if k = key then some v else ctxGet c key) = ctxGet c key
        rw [if_neg hk]

theorem ctxGet_runTurns_absent :
    ∀ (acts : List TurnAction) (s : Session) (key : String),
      ctxGet s.ctx key = none →
      (∀ a ∈ acts, lastWrite a.2.2 key = none) →
      ctxGet (runTurns s acts).ctx key = none := by
  intro acts
  induction acts with
  | nil => intro s key h _; exact h
  | cons a as ih =>
    intro s key h hall
    rw [runTurns]
    apply ih
    · show ctxGet (applyWrites s.ctx a.2.2) key = none
      rw [ctxGet_applyWrites, hall a (List.mem_cons_self a as)]
      exact h
    · intro b hb
      exact hall b (List.mem_cons_of_mem _ hb)

theorem ctxGet_runTurns_present :
    ∀ (acts : List TurnAction) (s : Session) (key : String),
      ctxGet s.ctx key ≠ none →
      ctxGet (runTurns s acts).ctx key ≠ none := by
  intro acts
  induction acts with
  | nil => intro s key h; exact h
  | cons a as ih =>
    intro s key h
    rw [runTurns]
    apply ih
    show ctxGet (applyWrites s.ctx a.2.2) key ≠ none
    rw [ctxGet_applyWrites]
    cases hlw : lastWrite a.2.2 key with
    | some v2 => exact fun habs => Option.noConfusion habs
    | none => exact h

/-- **C3**: a context-store write performed during a turn is visible (via
`get`) from the very next turn on, with last-write-wins semantics and no
reordering: the state after the turn is exactly the prior state overlaid
with the turn's writes; a key never written stays absent, and a present
key stays visible to all subsequently-invoked participants. -/
theorem context_visibility (s : Session) (p : PName) (out : Output)
    (ws : List (String × CtxVal)) (key : String) (v : CtxVal) :
    (lastWrite ws key = some v →
      ctxGet (execTurn s p out ws).ctx key = some v)
    ∧ (lastWrite ws key = none →
      ctxGet (execTurn s p out ws).ctx key = ctxGet s.ctx key)
    ∧ (∀ acts : List TurnAction, ctxGet s.ctx key = none →
        (∀ a ∈ acts, lastWrite a.2.2 key = none) →
        ctxGet (runTurns s acts).ctx key = none)
    ∧ (∀ acts : List TurnAction, ctxGet s.ctx key ≠ none →
        ctxGet (runTurns s acts).ctx key ≠ none) := by
  refine ⟨?_, ?_, fun acts => ctxGet_runTurns_absent acts s key,
    fun acts => ctxGet_runTurns_present acts s key⟩
  · intro h
    show ctxGet (applyWrites s.ctx ws) key = some v
    rw [ctxGet_applyWrites, h]
  · intro h
    show ctxGet (applyWrites s.ctx ws) key = ctxGet s.ctx key
    rw [ctxGet_applyWrites, h]

/-- Witness for `context_visibility`: two writes to `"x"` in one turn;
the later write wins and is visible after the turn. -/
theorem context_visibility_witness :
    lastWrite [("x", "1"), ("x", "2")] "x" = some "2"
    ∧ ctxGet (execTurn sessEx "B" "out" [("x", "1"), ("x", "2")]).ctx "x" = some "2" :=
  ⟨rfl, (context_visibility sessEx "B" "out" [("x", "1"), ("x", "2")] "x" "2").1 rfl⟩

/-!  ### Transcript invariants  -/

/-- One loop step either leaves the transcript unchanged or appends
exactly one turn carrying the next index. -/
theorem stepSession_transcript (produce : Producer) (s : Session) :
    (stepSession produce s).transcript = s.transcript
    ∨ ∃ p out, (stepSession produce s).transcript
        = s.transcript ++ [⟨p, out, s.transcript.length⟩] := by
  rw [stepSession]
  by_cases hs : s.state = .TERMINATED
  · rw [if_pos hs]
    exact Or.inl rfl
  · rw [if_neg hs]
    cases hadv : advance s with
    | ok ns =>
      cases ns with
      | invoke p => exact Or.inr ⟨p, (produce p s).1, rfl⟩
      | requestHumanInput => exact Or.inl rfl
      | terminate => exact Or.inl rfl
    | error e => exact Or.inl rfl

/-- **C4**: turn indices are strictly increasing and contiguous from 0
(the index list is exactly `range`), and recorded turns are immutable —
every run of the loop only ever appends to the transcript, never modifies
or removes an existing turn. -/
theorem transcript_append_only (produce : Producer) (s : Session) (n : Nat)
    (h : s.transcript.map (fun t => t.index) = List.range s.transcript.length) :
    ((runSteps produce n s).transcript.map (fun t => t.index)
        = List.range (runSteps produce n s).transcript.length)
    ∧ s.transcript <+: (runSteps produce n s).transcript := by
  induction n generalizing s with
  | zero => exact ⟨h, List.prefix_refl _⟩
  | succ n ih =>
    rw [runSteps]
    have hstep : ((stepSession produce s).transcript.map (fun t => t.index)
        = List.range (stepSession produce s).transcript.length)
        ∧ s.transcript <+: (stepSession produce s).transcript := by
      rcases stepSession_transcript produce s with heq | ⟨p, out, heq⟩
      · rw [heq]
        exact ⟨h, List.prefix_refl _⟩
      · rw [heq]
        refine ⟨?_, List.prefix_append _ _⟩
        rw [List.map_append, h, List.length_append]
        simp [List.range_succ]
    obtain ⟨h1, h2⟩ := ih (stepSession produce s) hstep.1
    exact ⟨h1, List.IsPrefix.trans hstep.2 h2⟩

/-- Witness for `transcript_append_only` at the concrete session
`sessEx`. -/
theorem transcript_append_only_witness :
    (sessEx.transcript.map (fun t => t.index) = List.range sessEx.transcript.length)
    ∧ (((runSteps prodEx 2 sessEx).transcript.map (fun t => t.index)
        = List.range (runSteps prodEx 2 sessEx).transcript.length)
      ∧ sessEx.transcript <+: (runSteps prodEx 2 sessEx).transcript) :=
  ⟨rfl, transcript_append_only prodEx sessEx 2 rfl⟩

/-!  ### Configuration validation  -/

theorem firstMatch_mem (out : Output) (c : Ctx) :
    ∀ (rs : List HandoffRule) (t : Target), firstMatch rs out c = some t →
      ∃ r ∈ rs, r.target = t := by
  intro rs
  induction rs with
  | nil =>
    intro t h
    rw [firstMatch] at h
    exact absurd h (by simp)
  | cons r rs ih =>
    intro t h
    rw [firstMatch] at h
    by_cases hc : r.cond out c = true
    · rw [if_pos hc] at h
      exact ⟨r, List.mem_cons_self r rs, Option.some.inj h⟩
    · rw [if_neg hc] at h
      obtain ⟨r2, hmem, ht⟩ := ih t h
      exact ⟨r2, List.mem_cons_of_mem _ hmem, ht⟩

/-- The running configuration invariant: the configuration validates and
the current participant is registered. -/
def ConfigInv (s : Session) : Prop :=
  validConfig s.registry s.rules s.fallback = true ∧ s.current ∈ s.registry

theorem validConfig_spec {registry : List PName} {rules : PName → List HandoffRule}
    {fallback : PName → Target} (h : validConfig registry rules fallback = true) :
    ∀ p ∈ registry, (∀ r ∈ rules p, targetOk registry r.target = true)
      ∧ targetOk registry (fallback p) = true := by
  intro p hp
  rw [validConfig, List.all_eq_true] at h
  have h2 := h p hp
  rw [Bool.and_eq_true, List.all_eq_true] at h2
  exact ⟨h2.1, h2.2⟩

theorem resolveTarget_not_configError (s : Session) (t : Target)
    (h : targetOk s.registry t = true) (msg : String) :
    resolveTarget s t ≠ .error (.ConfigurationError msg) := by
  cases t with
  | agent p =>
    rw [resolveTarget]
    have hp : p ∈ s.registry := of_decide_eq_true h
    rw [if_pos hp]
    exact fun habs => Except.noConfusion habs
  | manager =>
    rw [resolveTarget]
    cases hsel : s.managerSelect s.transcript s.ctx with
    | agent p =>
      show (if p ∈ s.registry then Except.ok (NextStep.invoke p)
        else Except.error RouterError.NoSelectionMade)
        ≠ Except.error (RouterError.ConfigurationError msg)
      by_cases hp : p ∈ s.registry
      · rw [if_pos hp]
        exact fun habs => Except.noConfusion habs
      · rw [if_neg hp]
        intro habs
        injection habs with h2
        exact RouterError.noConfusion h2
    | manager =>
      intro habs
      injection habs with h2
      exact RouterError.noConfusion h2
    | human =>
      intro habs
      injection habs with h2
      exact RouterError.noConfusion h2
    | terminate => exact fun habs => Except.noConfusion habs
  | human =>
    rw [resolveTarget]
    exact fun habs => Except.noConfusion habs
  | terminate =>
    rw [resolveTarget]
    exact fun habs => Except.noConfusion habs

theorem resolveTarget_invoke_mem (s : Session) (t : Target) (p : PName)
    (h : resolveTarget s t = .ok (.invoke p)) : p ∈ s.registry := by
  cases t with
  | agent q =>
    rw [resolveTarget] at h
    replace h : (if q ∈ s.registry then Except.ok (NextStep.invoke q)
      else Except.error (RouterError.ConfigurationError "rule targets unknown participant"))
      = Except.ok (NextStep.invoke p) := h
    by_cases hq : q ∈ s.registry
    · rw [if_pos hq] at h
      injection h with h2
      injection h2 with h3
      exact h3 ▸ hq
    · rw [if_neg hq] at h
      exact absurd h (fun habs => Except.noConfusion habs)
  | manager =>
    rw [resolveTarget] at h
    cases hsel : s.managerSelect s.transcript s.ctx with
    | agent q =>
      rw [hsel] at h
      replace h : (if q ∈ s.registry then Except.ok (NextStep.invoke q)
        else Except.error RouterError.NoSelectionMade)
        = Except.ok (NextStep.invoke p) := h
      by_cases hq : q ∈ s.registry
      · rw [if_pos hq] at h
        injection h with h2
        injection h2 with h3
        exact h3 ▸ hq
      · rw [if_neg hq] at h
        exact absurd h (fun habs => Except.noConfusion habs)
    | manager =>
      rw [hsel] at h
      exact absurd h (fun habs => Except.noConfusion habs)
    | human =>
      rw [hsel] at h
      exact absurd h (fun habs => Except.noConfusion habs)
    | terminate =>
      rw [hsel] at h
      injection h with h2
      exact NextStep.noConfusion h2
  | human =>
    rw [resolveTarget] at h
    injection h with h2
    exact NextStep.noConfusion h2
  | terminate =>
    rw [resolveTarget] at h
    injection h with h2
    exact NextStep.noConfusion h2

theorem advance_invoke_mem (s : Session) (p : PName)
    (h : advance s = .ok (.invoke p)) : p ∈ s.registry := by
  rw [advance] at h
  by_cases hcan : s.cancelled = true
  · rw [if_pos hcan] at h
    injection h with h2
    exact NextStep.noConfusion h2
  · rw [if_neg hcan] at h
    by_cases ht : s.termEval (latestOutput s) = true
    · rw [if_pos ht] at h
      injection h with h2
      exact NextStep.noConfusion h2
    · rw [if_neg ht] at h
      cases hfm : firstMatch (s.rules s.current) (latestOutput s) s.ctx with
      | some t =>
        rw [hfm] at h
        exact resolveTarget_invoke_mem s t p h
      | none =>
        rw [hfm] at h
        exact resolveTarget_invoke_mem s (s.fallback s.current) p h

theorem advance_no_configError (s : Session) (hinv : ConfigInv s) (msg : String) :
    advance s ≠ .error (.ConfigurationError msg) := by
  rw [advance]
  by_cases hcan : s.cancelled = true
  · rw [if_pos hcan]
    exact fun habs => Except.noConfusion habs
  · rw [if_neg hcan]
    by_cases ht : s.termEval (latestOutput s) = true
    · rw [if_pos ht]
      exact fun habs => Except.noConfusion habs
    · rw [if_neg ht]
      obtain ⟨hvc, hcur⟩ := hinv
      obtain ⟨hrules, hfb⟩ := validConfig_spec hvc s.current hcur
      cases hfm : firstMatch (s.rules s.current) (latestOutput s) s.ctx with
      | some t =>
        obtain ⟨r, hmem, rfl⟩ := firstMatch_mem (latestOutput s) s.ctx _ t hfm
        exact resolveTarget_not_configError s r.target (hrules r hmem) msg
      | none =>
        exact resolveTarget_not_configError s (s.fallback s.current) hfb msg

theorem stepSession_preserves_inv (produce : Producer) (s : Session)
    (hinv : ConfigInv s) : ConfigInv (stepSession produce s) := by
  rw [stepSession]
  by_cases hs : s.state = .TERMINATED
  · rw [if_pos hs]
    exact hinv
  · rw [if_neg hs]
    cases hadv : advance s with
    | ok ns =>
      cases ns with
      | invoke p => exact ⟨hinv.1, advance_invoke_mem s p hadv⟩
      | requestHumanInput => exact ⟨hinv.1, hinv.2⟩
      | terminate => exact ⟨hinv.1, hinv.2⟩
    | error e => exact ⟨hinv.1, hinv.2⟩

theorem runSteps_preserves_inv (produce : Producer) :
    ∀ (n : Nat) (s : Session), ConfigInv s → ConfigInv (runSteps produce n s) := by
  intro n
  induction n with
  | zero => intro s hinv; exact hinv
  | succ n ih =>
    intro s hinv
    rw [runSteps]
    exact ih (stepSession produce s) (stepSession_preserves_inv produce s hinv)

/-- **C5**: a rule table naming an unregistered hand-off target makes
`start_session` fail with a `ConfigurationError` before any `advance`
runs; conversely a session that passed validation never raises a
`ConfigurationError` at any later point of the run. -/
theorem configError_at_start :
    (∀ (registry : List PName) (rules : PName → List HandoffRule)
        (fallback : PName → Target) (ms : List Turn → Ctx → Target)
        (te : Output → Bool) (initial : PName) (c : Ctx)
        (p q : PName) (r : HandoffRule),
        p ∈ registry → r ∈ rules p → r.target = .agent q → q ∉ registry →
        ∃ msg, start_session registry rules fallback ms te initial c
          = .error (.ConfigurationError msg))
    ∧ (∀ (registry : List PName) (rules : PName → List HandoffRule)
        (fallback : PName → Target) (ms : List Turn → Ctx → Target)
        (te : Output → Bool) (initial : PName) (c : Ctx) (s : Session),
        start_session registry rules fallback ms te initial c = .ok s →
        ∀ (produce : Producer) (n : Nat) (msg : String),
          advance (runSteps produce n s) ≠ .error (.ConfigurationError msg)) := by
  constructor
  · intro registry rules fallback ms te initial c p q r hp hr htarget hq
    rw [start_session]
    by_cases hinit : initial ∈ registry
    · rw [if_pos hinit]
      have hvc : validConfig registry rules fallback = false := by
        rw [Bool.eq_false_iff]
        intro hvc
        obtain ⟨hrules, -⟩ := validConfig_spec hvc p hp
        have h2 := hrules r hr
        rw [htarget, targetOk] at h2
        exact hq (of_decide_eq_true h2)
      rw [hvc, if_neg Bool.false_ne_true]
      exact ⟨_, rfl⟩
    · rw [if_neg hinit]
      exact ⟨_, rfl⟩
  · intro registry rules fallback ms te initial c s hok produce n msg
    have hinv : ConfigInv s := by
      rw [start_session] at hok
      by_cases hinit : initial ∈ registry
      · rw [if_pos hinit] at hok
        by_cases hvc : validConfig registry rules fallback = true
        · rw [hvc, if_pos rfl] at hok
          injection hok with h2
          subst h2
          exact ⟨hvc, hinit⟩
        · rw [Bool.eq_false_iff.mpr hvc, if_neg Bool.false_ne_true] at hok
          exact absurd hok (fun habs => Except.noConfusion habs)
      · rw [if_neg hinit] at hok
        exact absurd hok (fun habs => Except.noConfusion habs)
    exact advance_no_configError _ (runSteps_preserves_inv produce n s hinv) msg

/-- A rule table with an unregistered target, for the witness. -/
def badRules : PName → List HandoffRule :=
  fun p => if p = "A" then [⟨fun _ _ => true, Target.agent "Z"⟩] else []

/-- Witness for `configError_at_start`: the unknown target `"Z"` is
rejected at session start. -/
theorem configError_at_start_witness :
    "A" ∈ ["A", "B"]
    ∧ (⟨fun _ _ => true, Target.agent "Z"⟩ : HandoffRule) ∈ badRules "A"
    ∧ (⟨fun _ _ => true, Target.agent "Z"⟩ : HandoffRule).target = Target.agent "Z"
    ∧ "Z" ∉ (["A", "B"] : List PName)
    ∧ ∃ msg, start_session ["A", "B"] badRules (fun _ => Target.terminate)
        (fun _ _ => Target.terminate) (fun _ => false) "A" []
        = .error (.ConfigurationError msg) :=
  ⟨by decide, List.mem_cons_self _ _, rfl, by decide,
   configError_at_start.1 ["A", "B"] badRules (fun _ => Target.terminate)
     (fun _ _ => Target.terminate) (fun _ => false) "A" [] "A" "Z"
     ⟨fun _ _ => true, Target.agent "Z"⟩ (by decide) (List.mem_cons_self _ _)
     rfl (by decide)⟩

end Ag2Spec
